import Mathlib

/-!
Verification development for the splat-temporal-compression pipeline
(`src/cli.js`).  The JavaScript source is shallowly embedded: every pure
computation of the CLI becomes a Lean function, the stateful
sequence-building loop becomes explicit state passing over a `BuildState`
record, external processes (splat-transform, ffmpeg, dwebp) become
abstract outcome parameters, and the filesystem is modelled as explicit
lists of directory entries.  JavaScript strings are modelled by `String`,
with the JS string operations (`toLowerCase`, `endsWith`, suffix-regex
replacement, template literals) given their character-wise semantics over
`String.data`.
-/

namespace SplatTemporal

/-! ### JS string primitives

`jsToLower` models `String.prototype.toLowerCase` (character-wise),
`jsEndsWith` models `String.prototype.endsWith` and the anchored regexes
`/\.webp$/i`, `/\.ply$/` used in the source, and `dropSuffixChars` models
removing a matched suffix of `n` characters. -/

def jsToLower (s : String) : String := ⟨s.data.map Char.toLower⟩

def jsEndsWith (s suffix : String) : Bool := suffix.data.isSuffixOf s.data

def dropSuffixChars (s : String) (n : Nat) : String := ⟨s.data.take (s.data.length - n)⟩

/-- Models `fileName.replace(/\.webp$/i, '.webm')` from `mapMetaToWebm`
(cli.js line 170): if the last five characters are `.webp` up to case,
they are replaced by `.webm`; otherwise the string is returned unchanged. -/
def replaceWebpExt (s : String) : String :=
  if jsEndsWith (jsToLower s) ".webp" then dropSuffixChars s 5 ++ ".webm" else s

/-- Decimal decoder, the inverse of `Nat.repr`, used to prove that the
decimal suffixes generated by `uniqueDir` and the frame numbers generated
by the sequence builder are injective renderings. -/
def decDigits (l : List Char) : Nat := l.foldl (fun a c => 10 * a + (c.toNat - 48)) 0

/-! ### Filesystem model

`fs.readdir(dir, { withFileTypes: true })` is modelled as a list of
directory entries, each carrying its name and whether it is a regular
file (`entry.isFile()`); subdirectory contents are *not* part of the
listing of their parent. -/

structure DirEntry where
  name : String
  isFile : Bool
deriving DecidableEq, Repr

/-- Lexicographic sort of strings, modelling
`.sort((a, b) => a.localeCompare(b))` (cli.js lines 71, 159, 340, 385).
`localeCompare` is abstracted as the code-point lexicographic order; the
algorithm is a stable sort, as required of JS `Array.prototype.sort`. -/
def sortLex (l : List String) : List String := l.insertionSort (· ≤ ·)

/-- Embedding of `listPlyFiles` (cli.js lines 66-72): the regular files of the input
directory whose lowercased name ends in `.ply`, joined to the input
directory path and sorted lexicographically. -/
def listPlyFiles (inputDir : String) (entries : List DirEntry) : List String :=
  sortLex ((entries.filter (fun e => e.isFile && jsEndsWith (jsToLower e.name) ".ply")).map
    (fun e => inputDir ++ "/" ++ e.name))

/-- Embedding of `listSequenceFrames` (cli.js lines 154-160): the regular files of a
sequence directory whose lowercased name ends in `.webp`, sorted by
name. -/
def listSequenceFrames (entries : List DirEntry) : List String :=
  sortLex ((entries.filter (fun e => e.isFile && jsEndsWith (jsToLower e.name) ".webp")).map
    (fun e => e.name))

/-- The candidate directory names tried by `uniqueDir` (cli.js lines
74-82): the base directory itself, then `` `${baseDir}_${suffix}` `` for
suffix 1, 2, ... -/
def candidateName (base : String) : Nat → String
  | 0 => base
  | k + 1 => base ++ "_" ++ Nat.repr (k + 1)

/-- The `while (await pathExists(candidate))` loop of `uniqueDir`,
with explicit fuel; `k` is the index of the candidate currently tried.
On a finite filesystem the fuel `existing.length + 1` used by
`uniqueDir` below never runs out (see theorem `uniqueDirGo_spec`). -/
def uniqueDirGo (existing : List String) (base : String) : Nat → Nat → String
  | 0, k => candidateName base k
  | fuel + 1, k =>
    if candidateName base k ∈ existing then uniqueDirGo existing base fuel (k + 1)
    else candidateName base k

/-- Embedding of `uniqueDir` (cli.js lines 74-82), over a filesystem whose existing
paths are `existing`. -/
def uniqueDir (existing : List String) (base : String) : String :=
  uniqueDirGo existing base (existing.length + 1) 0

/-! ### JSON values and `mapMetaToWebm`

`meta.json` contents are modelled by the inductive `JValue`.  JSON
numbers only ever meet a truthiness test in the rewriter, so they are
modelled as integers.  `JSON.parse` output has no duplicate object keys,
so object field update is modelled as a keyed map over the field list. -/

inductive JValue where
  | null
  | bool (b : Bool)
  | num (n : Int)
  | str (s : String)
  | arr (elems : List JValue)
  | obj (fields : List (String × JValue))

/-- JS property lookup on `JSON.parse` output (whose object keys are
unique): the first field with the given key. -/
def lookupField : List (String × JValue) → String → Option JValue
  | [], _ => none
  | p :: rest, key => if p.1 == key then some p.2 else lookupField rest key

/-- The field list of an object value (used to state theorems about
`mapMetaToWebm`, whose interesting inputs and outputs are objects). -/
def objFields : JValue → List (String × JValue)
  | .obj fields => fields
  | _ => []

/-- Models `cloned[key].files.map((fileName) => fileName.replace(/\.webp$/i, '.webm'))`
(cli.js lines 169-171), applied to the value of a `files` field.  The
source assumes the array holds file-name strings; non-string entries are
modelled as unchanged. -/
def mapFiles : JValue → JValue
  | .arr elems => .arr (elems.map (fun v =>
      match v with
      | .str s => .str (replaceWebpExt s)
      | v => v))
  | v => v

/-- Replacement of the `files` field inside one recognized attribute
object, modelling the assignment `cloned[key].files = ...`. -/
def updateFilesField (fields : List (String × JValue)) : List (String × JValue) :=
  fields.map (fun p => if p.1 == "files" then (p.1, mapFiles p.2) else p)

/-- The fixed recognized attribute keys (cli.js line 164). -/
def metaTargets : List String := ["means", "scales", "quats", "sh0", "shN"]

/-- The guard `!cloned[key] || !Array.isArray(cloned[key].files)`
(cli.js line 166), negated: the value is rewritten exactly when it is an
object whose `files` property is an array (any other value is either
falsy or lacks a `files` array). -/
def shouldRewrite : JValue → Bool
  | .obj fields =>
    match lookupField fields "files" with
    | some (.arr _) => true
    | _ => false
  | _ => false

def rewriteAttr : JValue → JValue
  | .obj fields => .obj (updateFilesField fields)
  | v => v

/-- Embedding of `mapMetaToWebm` (cli.js lines 162-174).  The deep copy through
`JSON.parse(JSON.stringify(meta))` and the in-place mutation of the copy
become a pure structural map; only fields named by `metaTargets` whose
value passes `shouldRewrite` are touched. -/
def mapMetaToWebm : JValue → JValue
  | .obj fields => .obj (fields.map (fun p =>
      if metaTargets.contains p.1 && shouldRewrite p.2 then (p.1, rewriteAttr p.2) else p))
  | v => v

/-! ### Sequence builder (cli.js lines 309-338) -/

/-- Models `String(currentIndex).padStart(5, '0')`. -/
def padStart5 (s : String) : String := ⟨List.replicate (5 - s.data.length) '0' ++ s.data⟩

/-- Models the frame file name template literal of cli.js line 323: the
frame index rendered in decimal, zero-padded to width 5, between
prefix `frame_` and extension `.webp`. -/
def frameFileName (idx : Nat) : String := "frame_" ++ padStart5 (Nat.repr idx) ++ ".webp"

/-- Lookup in an insertion-ordered string-keyed map (JS `Map.get`, whose
keys are unique). -/
def mapLookup : List (String × Nat) → String → Option Nat
  | [], _ => none
  | p :: rest, k => if p.1 == k then some p.2 else mapLookup rest k

/-- JS `Map.set`: update the existing entry in place, else append. -/
def mapSet : List (String × Nat) → String → Nat → List (String × Nat)
  | [], k, v => [(k, v)]
  | p :: rest, k, v => if p.1 == k then (k, v) :: rest else p :: mapSet rest k v

/-- One frame file copied into a sequence directory: which source object
it came from, which attribute sequence received it, and the frame index
and file name it was stored under. -/
structure CopyRecord where
  plyName : String
  seqName : String
  frameIndex : Nat
  fileName : String
deriving DecidableEq, Repr

/-- The mutable state of the sequence-building loop: the per-attribute
frame counters, the per-object canonical frame indices, plus the emitted
frame-file copies and console warnings as observable output. -/
structure BuildState where
  frameCounters : List (String × Nat)
  splatFrames : List (String × Nat)
  copies : List CopyRecord
  warnings : List String

def initialBuildState : BuildState := ⟨[], [], [], []⟩

/-- The warning text of cli.js lines 331-334. -/
def mismatchWarning (plyName : String) (saw expected : Nat) : String :=
  "Frame index mismatch for " ++ plyName ++ ": saw " ++ Nat.repr saw ++
    ", expected " ++ Nat.repr expected

/-- The body of the inner loop of cli.js lines 315-336, processing one
discovered `.webp` of source object `plyName` whose base name (= the
attribute sequence it belongs to) is `seqName`. -/
def processWebp (plyName seqName : String) (st : BuildState) : BuildState :=
  let currentIndex := (mapLookup st.frameCounters seqName).getD 0
  let counters := mapSet st.frameCounters seqName (currentIndex + 1)
  let copies := st.copies ++ [⟨plyName, seqName, currentIndex, frameFileName currentIndex⟩]
  match mapLookup st.splatFrames plyName with
  | none =>
    { frameCounters := counters, splatFrames := mapSet st.splatFrames plyName currentIndex,
      copies := copies, warnings := st.warnings }
  | some first =>
    if first = currentIndex then
      { frameCounters := counters, splatFrames := st.splatFrames,
        copies := copies, warnings := st.warnings }
    else
      { frameCounters := counters, splatFrames := st.splatFrames, copies := copies,
        warnings := st.warnings ++ [mismatchWarning plyName currentIndex first] }

/-- One processed source object: its `.ply` base file name and the base
names of the `.webp` attribute images found under its SOG directory by
`walkForWebp`, in discovery order. -/
structure SourceItem where
  plyName : String
  webps : List String
deriving DecidableEq, Repr

def processItem (st : BuildState) (item : SourceItem) : BuildState :=
  item.webps.foldl (fun s seq => processWebp item.plyName seq s) st

/-- The whole sequence-building loop (cli.js lines 312-338). -/
def buildSequences (items : List SourceItem) : BuildState :=
  items.foldl processItem initialBuildState

/-- The frame-file copies the builder performs on an in-cardinality
catalog (every object contributing the same attribute list): the `i`-th
object lands at frame index `k + i` in every one of its attribute
sequences.  Used to state the expected-cardinality invariants. -/
def expectedCopies (attrs : List String) : List SourceItem → Nat → List CopyRecord
  | [], _ => []
  | item :: rest, k =>
    attrs.map (fun a => ⟨item.plyName, a, k, frameFileName k⟩) ++
      expectedCopies attrs rest (k + 1)

/-! ### Manifests -/

structure ManifestEntry where
  original : String
  frame : Option Nat
  meta : JValue

/-- Fresh-conversion manifest assembly (cli.js lines 360-375): one entry
per processed item in catalog order; `frameIndex ?? null` becomes the
`Option` returned by `mapLookup`. -/
def buildManifest (items : List SourceItem) (metas : String → JValue) (st : BuildState) :
    List ManifestEntry :=
  items.map (fun item =>
    ⟨item.plyName, mapLookup st.splatFrames item.plyName, mapMetaToWebm (metas item.plyName)⟩)

/-- Rebuild (`--videos-only`) manifest assembly (cli.js lines 383-399):
the SOG directories are sorted lexicographically, and a directory at
position `index` contributes the entry `{original: dirName + ".ply",
frame: index, meta: ...}` when it has a `meta.json`, and nothing at all
otherwise. -/
def videosOnlyManifest (sogDirs : List String) (hasMeta : String → Bool)
    (metas : String → JValue) : List ManifestEntry :=
  ((sortLex sogDirs).enum).foldl (fun acc p =>
    if hasMeta p.2 then acc ++ [⟨p.2 ++ ".ply", some p.1, mapMetaToWebm (metas p.2)⟩]
    else acc) []

/-! ### External converter (cli.js lines 84-97, 287-306) -/

/-- The rejection message built at cli.js line 93. -/
def splatTransformError (code : Int) : String :=
  "splat-transform failed with exit code " ++ toString code

/-- Embedding of `runSplatTransform`: resolves on exit code 0 and rejects otherwise. -/
def runSplatTransform (exitCode : Int) : Except String Unit :=
  if exitCode = 0 then .ok () else .error (splatTransformError exitCode)

/-- One iteration of the conversion loop: a previous rejection
short-circuits (the `await` has already rethrown), otherwise the
converter is invoked on the next `.ply` file. -/
def convertStep (exitOf : String → Int) (acc : Except String (List String))
    (ply : String) : Except String (List String) :=
  match acc with
  | .error e => .error e
  | .ok done =>
    match runSplatTransform (exitOf ply) with
    | .ok _ => .ok (done ++ [ply])
    | .error e => .error e

/-- The conversion loop of cli.js lines 287-306 over the catalog
`plyFiles`, with `exitOf` giving each invocation's exit code.  A
rejection aborts the loop (the `await` rethrows into `main`). -/
def convertAll (exitOf : String → Int) (plyFiles : List String) :
    Except String (List String) :=
  plyFiles.foldl (convertStep exitOf) (.ok [])

/-! ### Encode orchestrator (cli.js lines 176-232, 340-358) -/

/-- Observable encode actions: the primary ffmpeg run on the WebP
sequence, one dwebp invocation per frame, and the ffmpeg run on the
transcoded PNG sequence. -/
inductive EncEvent where
  | primaryWebp
  | dwebpFrame (fileName : String)
  | primaryPng
deriving DecidableEq, Repr

/-- Outcomes of the external encoders for one sequence directory:
`primaryWebpRes` is the ffmpeg run on `frame_%05d.webp`, `primaryPngRes`
the ffmpeg run on `_png/frame_%05d.png`, and `dwebpRes f` the dwebp
transcode of frame file `f`. -/
structure EncEnv where
  primaryWebpRes : Except String Unit
  primaryPngRes : Except String Unit
  dwebpRes : String → Except String Unit

/-- Embedding of `convertSequenceToPng` (cli.js lines 124-142): dwebp is run on each
frame of `frames` in order; the first rejection aborts the loop.  The
returned trace records the dwebp invocations actually made. -/
def pngStep (dwebpRes : String → Except String Unit)
    (acc : Except String Unit × List EncEvent) (f : String) :
    Except String Unit × List EncEvent :=
  match acc with
  | (.error e, evs) => (.error e, evs)
  | (.ok _, evs) =>
    match dwebpRes f with
    | .ok _ => (.ok (), evs ++ [.dwebpFrame f])
    | .error e => (.error e, evs ++ [.dwebpFrame f])

def convertSequenceToPng (dwebpRes : String → Except String Unit) (frames : List String) :
    Except String Unit × List EncEvent :=
  frames.foldl (pngStep dwebpRes) (.ok (), [])

/-- Embedding of `encodeSequenceToWebm` (cli.js lines 202-232): try ffmpeg on the
whole WebP sequence; on failure, rethrow the original error if dwebp is
not on the PATH, otherwise transcode every frame to PNG in a `_png` side
directory and retry ffmpeg there.  `entries` is the directory listing of
the sequence directory, from which the fallback derives its frame list
via `listSequenceFrames`. -/
def encodeSequenceToWebm (env : EncEnv) (entries : List DirEntry)
    (dwebpPath : Option String) : Except String Unit × List EncEvent :=
  match env.primaryWebpRes with
  | .ok _ => (.ok (), [.primaryWebp])
  | .error e =>
    match dwebpPath with
    | none => (.error e, [.primaryWebp])
    | some _ =>
      match convertSequenceToPng env.dwebpRes (listSequenceFrames entries) with
      | (.error e2, evs) => (.error e2, .primaryWebp :: evs)
      | (.ok _, evs) =>
        match env.primaryPngRes with
        | .ok _ => (.ok (), .primaryWebp :: (evs ++ [.primaryPng]))
        | .error e3 => (.error e3, .primaryWebp :: (evs ++ [.primaryPng]))

/-- The encode loop of cli.js lines 340-358 over the lexicographically
sorted listing of the sequence root, where each element pairs a sequence
name with the directory listing of its sequence directory.  A sequence
with zero frames is skipped (`continue`); an encode rejection aborts the
loop.  Returns the names of the sequences for which a video was
produced. -/
def encodeStep (envOf : String → EncEnv) (dwebpPath : Option String)
    (acc : Except String (List String)) (seq : String × List DirEntry) :
    Except String (List String) :=
  match acc with
  | .error e => .error e
  | .ok vids =>
    if (listSequenceFrames seq.2).length = 0 then .ok vids
    else
      match (encodeSequenceToWebm (envOf seq.1) seq.2 dwebpPath).1 with
      | .ok _ => .ok (vids ++ [seq.1])
      | .error e => .error e

def encodeStage (envOf : String → EncEnv) (dwebpPath : Option String)
    (listing : List (String × List DirEntry)) : Except String (List String) :=
  listing.foldl (encodeStep envOf dwebpPath) (.ok [])

/-- The sequence-root directory contents produced by the build stage:
one directory per attribute sequence name, holding the frame files
recorded in `st.copies`. -/
def seqListing (st : BuildState) : List (String × List DirEntry) :=
  ((st.copies.map (fun c => c.seqName)).dedup).map (fun s =>
    (s, (st.copies.filter (fun c => c.seqName == s)).map (fun c => ⟨c.fileName, true⟩)))

def sortByFst (l : List (String × List DirEntry)) : List (String × List DirEntry) :=
  l.insertionSort (fun a b => a.1 ≤ b.1)

/-! ### Whole runs (`main`, cli.js lines 234-414)

A run is an `Except`: a rejected promise propagates to `main().catch`,
which prints the error and exits with code 1, so `.error` is precisely
an aborted run. -/

/-- A fresh-conversion run: convert every catalog entry (aborting on the
first converter failure), build the sequences, encode them, and assemble
the manifest.  `webpsOf` gives the attribute base names `walkForWebp`
discovers for each processed object, `metas` the parsed `meta.json`
contents. -/
def runFresh (exitOf : String → Int) (webpsOf : String → List String)
    (envOf : String → EncEnv) (dwebpPath : Option String)
    (metas : String → JValue) (plyFiles : List String) :
    Except String (List String × List ManifestEntry) :=
  match convertAll exitOf plyFiles with
  | .error e => .error e
  | .ok processed =>
    let items := processed.map (fun p => SourceItem.mk p (webpsOf p))
    let st := buildSequences items
    match encodeStage envOf dwebpPath (sortByFst (seqListing st)) with
    | .error e => .error e
    | .ok vids => .ok (vids, buildManifest items metas st)

/-- A `--videos-only` run: encode the pre-existing sequences (given as
the sorted listing of the sequence root), then rebuild the manifest from
the SOG directories. -/
def runVideosOnly (envOf : String → EncEnv) (dwebpPath : Option String)
    (listing : List (String × List DirEntry)) (sogDirs : List String)
    (hasMeta : String → Bool) (metas : String → JValue) :
    Except String (List String × List ManifestEntry) :=
  match encodeStage envOf dwebpPath listing with
  | .error e => .error e
  | .ok vids => .ok (vids, videosOnlyManifest sogDirs hasMeta metas)

/-! ## Helper theorems -/

theorem decDigits_append_singleton (l : List Char) (c : Char) :
    decDigits (l ++ [c]) = 10 * decDigits l + (c.toNat - 48) := by
  simp [decDigits, List.foldl_append]

theorem toDigitsCore_acc (b : Nat) :
    ∀ (fuel n : Nat) (acc : List Char),
      Nat.toDigitsCore b fuel n acc = Nat.toDigitsCore b fuel n [] ++ acc := by
  intro fuel
  induction fuel with
  | zero => intro n acc; simp [Nat.toDigitsCore]
  | succ fuel ih =>
    intro n acc
    simp only [Nat.toDigitsCore]
    by_cases h : n / b = 0
    · simp [h]
    · simp only [h, if_false]
      rw [ih (n / b) (Nat.digitChar (n % b) :: acc), ih (n / b) [Nat.digitChar (n % b)]]
      simp

theorem digitChar_toNat_sub (m : Nat) (h : m < 10) : (Nat.digitChar m).toNat - 48 = m := by
  interval_cases m <;> decide

theorem decDigits_toDigitsCore :
    ∀ (fuel n : Nat), n < fuel → decDigits (Nat.toDigitsCore 10 fuel n []) = n := by
  intro fuel
  induction fuel with
  | zero => intro n h; omega
  | succ fuel ih =>
    intro n h
    simp only [Nat.toDigitsCore]
    by_cases h0 : n / 10 = 0
    · have hn : n < 10 := by omega
      simp only [h0, if_true]
      have : decDigits [Nat.digitChar (n % 10)] = (Nat.digitChar (n % 10)).toNat - 48 := by
        simp [decDigits]
      rw [this, digitChar_toNat_sub _ (Nat.mod_lt _ (by omega))]
      omega
    · simp only [h0, if_false]
      rw [toDigitsCore_acc, decDigits_append_singleton,
        digitChar_toNat_sub _ (Nat.mod_lt _ (by omega))]
      have hlt : n / 10 < fuel := by
        have h1 : 0 < n := by
          by_contra hz
          have : n = 0 := by omega
          subst this; simp at h0
        have := Nat.div_lt_self h1 (by omega : 1 < 10)
        omega
      rw [ih _ hlt]
      omega

theorem natRepr_inj {m n : Nat} (h : Nat.repr m = Nat.repr n) : m = n := by
  have hm : Nat.repr m = (Nat.toDigits 10 m).asString := rfl
  have hn : Nat.repr n = (Nat.toDigits 10 n).asString := rfl
  have hdata : (Nat.toDigits 10 m) = (Nat.toDigits 10 n) := by
    have := congrArg String.data h
    simpa [hm, hn, List.asString] using this
  have dm := decDigits_toDigitsCore (m + 1) m (Nat.lt_succ_self m)
  have dn := decDigits_toDigitsCore (n + 1) n (Nat.lt_succ_self n)
  unfold Nat.toDigits at hdata
  rw [← dm, ← dn, hdata]

theorem candidateName_inj (base : String) : Function.Injective (candidateName base) := by
  have hlen : ∀ k : Nat, (candidateName base (k + 1)).length =
      base.length + 1 + (Nat.repr (k + 1)).length := by
    intro k; simp [candidateName, String.length_append]; decide
  intro i j h
  match i, j with
  | 0, 0 => rfl
  | 0, j + 1 =>
    exfalso
    have := congrArg String.length h
    rw [hlen j] at this
    simp [candidateName] at this
    omega
  | i + 1, 0 =>
    exfalso
    have := congrArg String.length h
    rw [hlen i] at this
    simp [candidateName] at this
    omega
  | i + 1, j + 1 =>
    have hdata := congrArg String.data h
    simp only [candidateName, String.data_append] at hdata
    have hrepr : (Nat.repr (i + 1)).data = (Nat.repr (j + 1)).data := by
      simpa [List.append_assoc] using hdata
    have : Nat.repr (i + 1) = Nat.repr (j + 1) := by
      cases hr1 : Nat.repr (i + 1) with
      | mk d1 =>
        cases hr2 : Nat.repr (j + 1) with
        | mk d2 =>
          rw [hr1, hr2] at hrepr
          exact congrArg String.mk hrepr
    have := natRepr_inj this
    omega

theorem exists_free_candidate (existing : List String) (base : String) :
    ∃ j, j ≤ existing.length ∧ candidateName base j ∉ existing := by
  by_contra hall
  push_neg at hall
  have hsub : ((List.range (existing.length + 1)).map (candidateName base)) ⊆ existing := by
    intro x hx
    rcases List.mem_map.mp hx with ⟨j, hj, rfl⟩
    exact hall j (by simpa using Nat.lt_succ_iff.mp (List.mem_range.mp hj))
  have hnd : ((List.range (existing.length + 1)).map (candidateName base)).Nodup :=
    (List.nodup_range _).map (candidateName_inj base)
  have := (List.subperm_of_subset hnd hsub).length_le
  simp at this

theorem uniqueDirGo_spec (existing : List String) (base : String) :
    ∀ (fuel k : Nat), (∃ j, j ≤ fuel ∧ candidateName base (k + j) ∉ existing) →
      ∃ m, uniqueDirGo existing base fuel k = candidateName base (k + m) ∧
        candidateName base (k + m) ∉ existing ∧
        ∀ i, i < m → candidateName base (k + i) ∈ existing := by
  intro fuel
  induction fuel with
  | zero =>
    intro k h
    rcases h with ⟨j, hj, hfree⟩
    have : j = 0 := by omega
    subst this
    exact ⟨0, by simp [uniqueDirGo], hfree, fun i hi => absurd hi (by omega)⟩
  | succ fuel ih =>
    intro k h
    by_cases hmem : candidateName base k ∈ existing
    · have h' : ∃ j, j ≤ fuel ∧ candidateName base (k + 1 + j) ∉ existing := by
        rcases h with ⟨j, hj, hfree⟩
        match j, hj with
        | 0, _ => exact absurd hmem (by simpa using hfree)
        | j + 1, hj =>
          exact ⟨j, by omega, by simpa [Nat.add_assoc, Nat.add_comm 1 j] using hfree⟩
      rcases ih (k + 1) h' with ⟨m, heq, hfree, hmin⟩
      refine ⟨m + 1, ?_, ?_, ?_⟩
      · simpa [uniqueDirGo, hmem, Nat.add_assoc, Nat.add_comm 1 m] using heq
      · simpa [Nat.add_assoc, Nat.add_comm 1 m] using hfree
      · intro i hi
        match i with
        | 0 => simpa using hmem
        | i + 1 =>
          have := hmin i (by omega)
          simpa [Nat.add_assoc, Nat.add_comm 1 i] using this
    · exact ⟨0, by simp [uniqueDirGo, hmem], by simpa using hmem,
        fun i hi => absurd hi (by omega)⟩

/-- Correctness of `uniqueDir`: it always returns a path that does not yet exist, and it is
the candidate with the smallest suffix index that does not exist (the
base directory itself counting as index 0, then `_1`, `_2`, ...). -/
theorem uniqueDir_spec (existing : List String) (base : String) :
    uniqueDir existing base ∉ existing ∧
      ∃ m, uniqueDir existing base = candidateName base m ∧
        ∀ i, i < m → candidateName base i ∈ existing := by
  rcases exists_free_candidate existing base with ⟨j, hj, hfree⟩
  rcases uniqueDirGo_spec existing base (existing.length + 1) 0
      ⟨j, by omega, by simpa using hfree⟩ with ⟨m, heq, hfreem, hmin⟩
  refine ⟨?_, m, by simpa using heq, fun i hi => by simpa using hmin i hi⟩
  rw [uniqueDir, heq]
  simpa using hfreem

/-! ### Map lemmas -/

theorem mapLookup_set_self (m : List (String × Nat)) (k : String) (v : Nat) :
    mapLookup (mapSet m k v) k = some v := by
  induction m with
  | nil => simp [mapSet, mapLookup]
  | cons p rest ih =>
    by_cases h : p.1 = k
    · simp [mapSet, mapLookup, h]
    · simp [mapSet, mapLookup, h, ih]

theorem mapLookup_set_other (m : List (String × Nat)) (k k' : String) (v : Nat)
    (h : k' ≠ k) : mapLookup (mapSet m k v) k' = mapLookup m k' := by
  have hk : k ≠ k' := fun he => h he.symm
  induction m with
  | nil => simp [mapSet, mapLookup, hk]
  | cons p rest ih =>
    by_cases hp : p.1 = k
    · subst hp
      simp [mapSet, mapLookup, hk]
    · by_cases hq : p.1 = k'
      · simp only [mapSet, beq_iff_eq, hp, if_false]
        simp [mapLookup, hq]
      · simp only [mapSet, beq_iff_eq, hp, if_false]
        simp [mapLookup, hq, ih]

/-! ### Encode orchestrator lemmas (claims C3, C8) -/

/-- C3: for every attribute sequence, the encode operation first runs the
primary ffmpeg path on the whole sequence (the trace always begins with
`primaryWebp`); when the primary path succeeds nothing else is attempted;
and when it fails with `dwebp` absent, the operation rethrows exactly the
original primary-path error. -/
theorem encode_fallback_policy (env : EncEnv) (entries : List DirEntry)
    (dwebpPath : Option String) :
    (encodeSequenceToWebm env entries dwebpPath).2.head? = some .primaryWebp ∧
    (env.primaryWebpRes = .ok () →
      encodeSequenceToWebm env entries dwebpPath = (.ok (), [.primaryWebp])) ∧
    (∀ e, env.primaryWebpRes = .error e → dwebpPath = none →
      encodeSequenceToWebm env entries dwebpPath = (.error e, [.primaryWebp])) := by
  refine ⟨?_, ?_, ?_⟩
  · unfold encodeSequenceToWebm
    cases hp : env.primaryWebpRes with
    | ok u => rfl
    | error e =>
      cases dwebpPath with
      | none => rfl
      | some d =>
        cases hc : convertSequenceToPng env.dwebpRes (listSequenceFrames entries) with
        | mk r evs =>
          cases r with
          | ok u => cases env.primaryPngRes <;> rfl
          | error e2 => rfl
  · intro h
    unfold encodeSequenceToWebm
    rw [h]
  · intro e h hd
    unfold encodeSequenceToWebm
    rw [h, hd]

theorem encode_fallback_policy_witness :
    encodeSequenceToWebm ⟨.ok (), .ok (), fun _ => .ok ()⟩ [] none = (.ok (), [.primaryWebp]) ∧
    encodeSequenceToWebm ⟨.error "boom", .ok (), fun _ => .ok ()⟩ [] none =
      (.error "boom", [.primaryWebp]) :=
  ⟨(encode_fallback_policy ⟨.ok (), .ok (), fun _ => .ok ()⟩ [] none).2.1 rfl,
   (encode_fallback_policy ⟨.error "boom", .ok (), fun _ => .ok ()⟩ [] none).2.2 "boom" rfl rfl⟩

theorem encodeStep_skip (envOf : String → EncEnv) (dwebpPath : Option String)
    (acc : Except String (List String)) (name : String) (entries : List DirEntry)
    (hz : listSequenceFrames entries = []) :
    encodeStep envOf dwebpPath acc (name, entries) = acc := by
  cases acc with
  | error e => rfl
  | ok vids => simp [encodeStep, hz]

/-- C8: an attribute sequence directory with zero frame files is skipped
by the encode stage: the run behaves exactly as if the directory were
absent — no video for it, no error from it, and the manifest of the run
is unchanged. -/
theorem zero_frame_sequence_skipped (envOf : String → EncEnv) (dwebpPath : Option String)
    (pre post : List (String × List DirEntry)) (name : String) (entries : List DirEntry)
    (sogDirs : List String) (hasMeta : String → Bool) (metas : String → JValue)
    (hz : listSequenceFrames entries = []) :
    encodeStage envOf dwebpPath (pre ++ (name, entries) :: post) =
      encodeStage envOf dwebpPath (pre ++ post) ∧
    runVideosOnly envOf dwebpPath (pre ++ (name, entries) :: post) sogDirs hasMeta metas =
      runVideosOnly envOf dwebpPath (pre ++ post) sogDirs hasMeta metas := by
  have hstage : encodeStage envOf dwebpPath (pre ++ (name, entries) :: post) =
      encodeStage envOf dwebpPath (pre ++ post) := by
    unfold encodeStage
    rw [List.foldl_append, List.foldl_append, List.foldl_cons,
      encodeStep_skip envOf dwebpPath _ name entries hz]
  exact ⟨hstage, by unfold runVideosOnly; rw [hstage]⟩

theorem zero_frame_sequence_skipped_witness :
    encodeStage (fun _ => ⟨.ok (), .ok (), fun _ => .ok ()⟩) none
        ([] ++ ("shN", []) :: [("means", [⟨"frame_00000.webp", true⟩])]) =
      encodeStage (fun _ => ⟨.ok (), .ok (), fun _ => .ok ()⟩) none
        ([] ++ [("means", [⟨"frame_00000.webp", true⟩])]) :=
  (zero_frame_sequence_skipped (fun _ => ⟨.ok (), .ok (), fun _ => .ok ()⟩) none
    [] [("means", [⟨"frame_00000.webp", true⟩])] "shN" [] [] (fun _ => true)
    (fun _ => JValue.null) rfl).1

/-! ### Converter failure (claim C6) -/

theorem foldl_convertStep_error (exitOf : String → Int) (e : String) :
    ∀ l : List String, l.foldl (convertStep exitOf) (.error e) = .error e := by
  intro l
  induction l with
  | nil => rfl
  | cons p rest ih => simpa [convertStep] using ih

theorem foldl_convertStep_all_zero (exitOf : String → Int) :
    ∀ (pre : List String) (done : List String), (∀ p ∈ pre, exitOf p = 0) →
      pre.foldl (convertStep exitOf) (.ok done) = .ok (done ++ pre) := by
  intro pre
  induction pre with
  | nil => intro done _; simp
  | cons p rest ih =>
    intro done hok
    have hp : exitOf p = 0 := hok p (by simp)
    have := ih (done ++ [p]) (fun q hq => hok q (by simp [hq]))
    simpa [convertStep, runSplatTransform, hp] using this

/-- C6 (amended): if the converter exits non-zero on some catalog entry
(all earlier entries having converted cleanly), the whole run aborts,
with the error carrying the converter's exit code — but not the source
object's identifier (see `converter_error_lacks_identifier`). -/
theorem converter_failure_aborts (exitOf : String → Int) (webpsOf : String → List String)
    (envOf : String → EncEnv) (dwebpPath : Option String) (metas : String → JValue)
    (pre post : List String) (ply : String)
    (hok : ∀ p ∈ pre, exitOf p = 0) (hbad : exitOf ply ≠ 0) :
    convertAll exitOf (pre ++ ply :: post) = .error (splatTransformError (exitOf ply)) ∧
    runFresh exitOf webpsOf envOf dwebpPath metas (pre ++ ply :: post) =
      .error (splatTransformError (exitOf ply)) := by
  have hconv : convertAll exitOf (pre ++ ply :: post) =
      .error (splatTransformError (exitOf ply)) := by
    unfold convertAll
    rw [List.foldl_append, foldl_convertStep_all_zero exitOf pre [] hok]
    rw [List.foldl_cons]
    have hstep : convertStep exitOf (.ok ([] ++ pre)) ply =
        .error (splatTransformError (exitOf ply)) := by
      simp [convertStep, runSplatTransform, hbad]
    rw [hstep, foldl_convertStep_error]
  refine ⟨hconv, ?_⟩
  unfold runFresh
  rw [hconv]

theorem converter_failure_aborts_witness :
    runFresh (fun _ => 1) (fun _ => []) (fun _ => ⟨.ok (), .ok (), fun _ => .ok ()⟩) none
      (fun _ => JValue.null) ([] ++ "zebra.ply" :: []) =
      .error (splatTransformError 1) :=
  (converter_failure_aborts (fun _ => 1) (fun _ => []) (fun _ => ⟨.ok (), .ok (), fun _ => .ok ()⟩)
    none (fun _ => JValue.null) [] [] "zebra.ply" (fun p hp => absurd hp (by simp))
    (by decide)).2

/-- C6 counterexample to the claim as stated: the abort error for a
failing converter invocation is the fixed message built at cli.js line
93; it does not contain the failing object's identifier (`zebra.ply`),
neither as a full name nor as a base name. -/
theorem converter_error_lacks_identifier :
    runFresh (fun _ => 1) (fun _ => []) (fun _ => ⟨.ok (), .ok (), fun _ => .ok ()⟩) none
        (fun _ => JValue.null) ["zebra.ply"] =
      .error "splat-transform failed with exit code 1" ∧
    ¬ ("zebra.ply".data <:+: "splat-transform failed with exit code 1".data) ∧
    ¬ ("zebra".data <:+: "splat-transform failed with exit code 1".data) :=
  ⟨rfl, by decide, by decide⟩

/-! ### Mismatch handling (claim C7) -/

theorem processWebp_preserves_splat (q1 q2 : String) (st : BuildState) (pl : String) (j : Nat)
    (h : mapLookup st.splatFrames pl = some j) :
    mapLookup (processWebp q1 q2 st).splatFrames pl = some j := by
  unfold processWebp
  cases hq : mapLookup st.splatFrames q1 with
  | none =>
    have hne : pl ≠ q1 := by
      intro he; rw [he] at h; rw [h] at hq; exact Option.noConfusion hq
    simpa [mapLookup_set_other _ _ _ _ hne] using h
  | some first =>
    by_cases he : first = (mapLookup st.frameCounters q2).getD 0 <;> simpa [he] using h

theorem foldl_processWebp_preserves_splat (pl : String) (j : Nat) :
    ∀ (rest : List (String × String)) (st : BuildState),
      mapLookup st.splatFrames pl = some j →
      mapLookup (rest.foldl (fun s q => processWebp q.1 q.2 s) st).splatFrames pl = some j := by
  intro rest
  induction rest with
  | nil => intro st h; exact h
  | cons q rest ih =>
    intro st h
    exact ih _ (processWebp_preserves_splat q.1 q.2 st pl j h)

/-- C7: when a later attribute image of a source object resolves to a
frame index different from the one already recorded for that object, the
builder appends exactly the mismatch warning of cli.js lines 331-334 and
keeps the first-seen index; however much more of the run follows, the
recorded index (which the manifest later reads) is still the first-seen
one, and processing never aborts. -/
theorem mismatch_warns_and_keeps_first_index (st : BuildState) (pl seq : String) (j : Nat)
    (rest : List (String × String))
    (hs : mapLookup st.splatFrames pl = some j)
    (hne : (mapLookup st.frameCounters seq).getD 0 ≠ j) :
    (processWebp pl seq st).warnings =
      st.warnings ++ [mismatchWarning pl ((mapLookup st.frameCounters seq).getD 0) j] ∧
    (processWebp pl seq st).splatFrames = st.splatFrames ∧
    mapLookup (rest.foldl (fun s q => processWebp q.1 q.2 s)
        (processWebp pl seq st)).splatFrames pl = some j := by
  have hj : j ≠ (mapLookup st.frameCounters seq).getD 0 := fun he => hne he.symm
  refine ⟨?_, ?_, ?_⟩
  · unfold processWebp
    rw [hs]
    simp [hj]
  · unfold processWebp
    rw [hs]
    simp [hj]
  · exact foldl_processWebp_preserves_splat pl j rest _
      (processWebp_preserves_splat pl seq st pl j hs)

theorem mismatch_warns_and_keeps_first_index_witness :
    (processWebp "b.ply" "means" ⟨[("means", 1)], [("b.ply", 0)], [], []⟩).warnings =
      [] ++ [mismatchWarning "b.ply" 1 0] ∧
    (processWebp "b.ply" "means" ⟨[("means", 1)], [("b.ply", 0)], [], []⟩).splatFrames =
      [("b.ply", 0)] ∧
    mapLookup ([("c.ply", "shN")].foldl (fun s q => processWebp q.1 q.2 s)
        (processWebp "b.ply" "means" ⟨[("means", 1)], [("b.ply", 0)], [], []⟩)).splatFrames
      "b.ply" = some 0 := by
  have h := mismatch_warns_and_keeps_first_index ⟨[("means", 1)], [("b.ply", 0)], [], []⟩
    "b.ply" "means" 0 [("c.ply", "shN")] (by decide) (by decide)
  exact ⟨by simpa using h.1, h.2.1, h.2.2⟩

/-! ### Source catalog (claim C9) -/

/-- C9: the source catalog lists the input directory's `.ply` files
(exactly the regular files whose lowercased name ends in `.ply`, joined
to the input directory) sorted lexicographically, and output directory
collisions are resolved by `uniqueDir` with the smallest numeric suffix
whose candidate does not exist — never by failing, and always returning
a path that does not yet exist. -/
theorem catalog_sorted_and_collisions_suffixed (inputDir : String) (entries : List DirEntry)
    (existing : List String) (base : String) :
    (listPlyFiles inputDir entries).Sorted (· ≤ ·) ∧
    (listPlyFiles inputDir entries).Perm
      ((entries.filter (fun e => e.isFile && jsEndsWith (jsToLower e.name) ".ply")).map
        (fun e => inputDir ++ "/" ++ e.name)) ∧
    uniqueDir existing base ∉ existing ∧
    ∃ m, uniqueDir existing base = candidateName base m ∧
      ∀ i, i < m → candidateName base i ∈ existing :=
  ⟨List.sorted_insertionSort _ _, List.perm_insertionSort _ _,
    (uniqueDir_spec existing base).1, (uniqueDir_spec existing base).2⟩

/-! ### Sequence frame listing (claim C10) -/

theorem convertSequenceToPng_go (dwebpRes : String → Except String Unit) :
    ∀ (frames : List String) (evs : List EncEvent), (∀ f ∈ frames, dwebpRes f = .ok ()) →
      frames.foldl (pngStep dwebpRes) (.ok (), evs) =
      (.ok (), evs ++ frames.map EncEvent.dwebpFrame) := by
  intro frames
  induction frames with
  | nil => intro evs _; simp
  | cons f rest ih =>
    intro evs hok
    have hf : dwebpRes f = .ok () := hok f (by simp)
    have := ih (evs ++ [.dwebpFrame f]) (fun g hg => hok g (by simp [hg]))
    simpa [pngStep, hf] using this

/-- C10: the frame list of a sequence directory consists exactly of the
regular files directly in that directory whose lowercased names end in
`.webp`, sorted by name; a non-file entry (in particular the `_png` side
directory left behind by the fallback) never contributes, so a rerun
over a directory with fallback leftovers sees the same frame list; and
the fallback transcode walks exactly this frame list, in order. -/
theorem frame_listing_ignores_png_sidedir (entries pre post : List DirEntry) (e : DirEntry)
    (dwebpRes : String → Except String Unit)
    (hdir : e.isFile = false) (hok : ∀ f, dwebpRes f = .ok ()) :
    listSequenceFrames (pre ++ e :: post) = listSequenceFrames (pre ++ post) ∧
    (listSequenceFrames entries).Sorted (· ≤ ·) ∧
    (listSequenceFrames entries).Perm
      ((entries.filter (fun en => en.isFile && jsEndsWith (jsToLower en.name) ".webp")).map
        (fun en => en.name)) ∧
    (convertSequenceToPng dwebpRes (listSequenceFrames entries)).2 =
      (listSequenceFrames entries).map EncEvent.dwebpFrame := by
  refine ⟨?_, List.sorted_insertionSort _ _, List.perm_insertionSort _ _, ?_⟩
  · simp [listSequenceFrames, List.filter_append, hdir]
  · have := convertSequenceToPng_go dwebpRes (listSequenceFrames entries) []
      (fun f _ => hok f)
    rw [convertSequenceToPng, this]
    simp

theorem frame_listing_ignores_png_sidedir_witness :
    listSequenceFrames ([] ++ ⟨"_png", false⟩ :: [⟨"a.webp", true⟩]) =
      listSequenceFrames ([] ++ [⟨"a.webp", true⟩]) ∧
    (convertSequenceToPng (fun _ => .ok ()) (listSequenceFrames [⟨"a.webp", true⟩])).2 =
      (listSequenceFrames [⟨"a.webp", true⟩]).map EncEvent.dwebpFrame := by
  have h := frame_listing_ignores_png_sidedir [⟨"a.webp", true⟩] [] [⟨"a.webp", true⟩]
    ⟨"_png", false⟩ (fun _ => .ok ()) rfl (fun _ => rfl)
  exact ⟨h.1, h.2.2.2⟩

/-! ### Rebuild-mode manifest (claim C4) -/

theorem sortLex_pair_ab : sortLex ["a", "b"] = ["a", "b"] :=
  List.Sorted.insertionSort_eq (by simp [List.sorted_cons]; decide)

theorem videosOnlyManifest_foldl (hasMeta : String → Bool) (metas : String → JValue) :
    ∀ (l : List (Nat × String)) (acc : List ManifestEntry),
      l.foldl (fun acc p =>
        if hasMeta p.2 then acc ++ [⟨p.2 ++ ".ply", some p.1, mapMetaToWebm (metas p.2)⟩]
        else acc) acc =
      acc ++ (l.filter (fun p => hasMeta p.2)).map
        (fun p => ⟨p.2 ++ ".ply", some p.1, mapMetaToWebm (metas p.2)⟩) := by
  intro l
  induction l with
  | nil => intro acc; simp
  | cons p rest ih =>
    intro acc
    by_cases h : hasMeta p.2
    · simp [h, ih]
    · simp [h, ih]

/-- C4 (amended): the rebuild-mode manifest has one entry per SOG
directory *that contains a metadata file*, in lexicographic directory
order, each carrying `frame` equal to that directory's index within the
lexicographic order of *all* directories; directories without metadata
are omitted entirely.  In particular a root with exactly the two
directories `a` and `b`, both with metadata, yields a 2-entry manifest
with frames 0 and 1. -/
theorem rebuild_manifest_indexed_by_sorted_dirs :
    (∀ (sogDirs : List String) (hasMeta : String → Bool) (metas : String → JValue),
      videosOnlyManifest sogDirs hasMeta metas =
        (((sortLex sogDirs).enum).filter (fun p => hasMeta p.2)).map
          (fun p => ⟨p.2 ++ ".ply", some p.1, mapMetaToWebm (metas p.2)⟩)) ∧
    (∀ metas : String → JValue,
      (videosOnlyManifest ["a", "b"] (fun _ => true) metas).map
        (fun e => (e.original, e.frame)) = [("a.ply", some 0), ("b.ply", some 1)]) := by
  constructor
  · intro sogDirs hasMeta metas
    unfold videosOnlyManifest
    rw [videosOnlyManifest_foldl hasMeta metas]
    simp
  · intro metas
    unfold videosOnlyManifest
    rw [sortLex_pair_ab, videosOnlyManifest_foldl (fun _ => true) metas]
    simp [List.enum]

/-- C4 counterexample to the claim as stated: with SOG directories `a`
(no metadata) and `b` (metadata present), the manifest has a single
entry — directory `a` gets no entry at all rather than an entry with
`frame: null` — and the surviving entry's frame is 1, the index of `b`
among all directories. -/
theorem rebuild_manifest_missing_meta_omitted :
    (videosOnlyManifest ["a", "b"] (fun d => d == "b") (fun _ => JValue.null)).map
      (fun e => (e.original, e.frame)) = [("b.ply", some 1)] ∧
    (videosOnlyManifest ["a", "b"] (fun d => d == "b") (fun _ => JValue.null)).length ≠ 2 := by
  have h : videosOnlyManifest ["a", "b"] (fun d => d == "b") (fun _ => JValue.null) =
      [⟨"b.ply", some 1, mapMetaToWebm JValue.null⟩] := by
    unfold videosOnlyManifest
    rw [sortLex_pair_ab, videosOnlyManifest_foldl (fun d => d == "b") (fun _ => JValue.null)]
    rfl
  rw [h]
  exact ⟨rfl, by decide⟩

/-! ### Metadata rewriting (claim C5) -/

/-- A map over an object's fields that rewrites each value as a function
of its key (keys untouched).  Both rewriting loops of `mapMetaToWebm`
have this shape. -/
def mapValuesWithKey (F : String → JValue → JValue)
    (fields : List (String × JValue)) : List (String × JValue) :=
  fields.map (fun p => (p.1, F p.1 p.2))

theorem lookupField_mapValuesWithKey (F : String → JValue → JValue)
    (fields : List (String × JValue)) (k : String) :
    lookupField (mapValuesWithKey F fields) k = (lookupField fields k).map (F k) := by
  induction fields with
  | nil => rfl
  | cons p rest ih =>
    by_cases h : p.1 = k
    · subst h
      simp [mapValuesWithKey, lookupField]
    · simpa [mapValuesWithKey, lookupField, h] using ih

theorem mapMeta_fields_eq (fields : List (String × JValue)) :
    mapMetaToWebm (.obj fields) = .obj (mapValuesWithKey
      (fun k v => if metaTargets.contains k && shouldRewrite v then rewriteAttr v else v)
      fields) := by
  simp only [mapMetaToWebm, mapValuesWithKey]
  congr 1
  apply List.map_congr_left
  intro p _
  by_cases hc : p.1 ∈ metaTargets ∧ shouldRewrite p.2 = true
  · simp [hc]
  · simp [hc]

theorem updateFilesField_eq (attrs : List (String × JValue)) :
    updateFilesField attrs =
      mapValuesWithKey (fun k v => if k == "files" then mapFiles v else v) attrs := by
  simp only [updateFilesField, mapValuesWithKey]
  apply List.map_congr_left
  intro p _
  by_cases hf : p.1 = "files"
  · simp [hf]
  · simp [hf]

theorem lookupField_mapMeta (fields : List (String × JValue)) (k : String) :
    lookupField (objFields (mapMetaToWebm (.obj fields))) k =
      (lookupField fields k).map
        (fun v => if metaTargets.contains k && shouldRewrite v then rewriteAttr v else v) := by
  rw [mapMeta_fields_eq]
  exact lookupField_mapValuesWithKey
    (fun k v => if metaTargets.contains k && shouldRewrite v then rewriteAttr v else v) fields k

theorem lookupField_updateFiles (attrs : List (String × JValue)) (k2 : String) :
    lookupField (updateFilesField attrs) k2 =
      (lookupField attrs k2).map (fun v => if k2 == "files" then mapFiles v else v) := by
  rw [updateFilesField_eq]
  exact lookupField_mapValuesWithKey _ attrs k2

/-- C5: `mapMetaToWebm` is a pure, non-lossy deep rewrite (in the
embedding it is a function, so the input value is never mutated): keys
outside the recognized set keep their values; recognized keys whose
value is not an object with a `files` array keep their values; a
recognized key with a `files` array keeps everything except that its
`files` entries have `.webp` (case-insensitively) replaced by `.webm`,
same base name; file names not ending in `.webp` are untouched; and the
key sequence of the object is preserved. -/
theorem meta_rewrite_pure_nonlossy :
    (∀ (fields : List (String × JValue)) (k : String), metaTargets.contains k = false →
        lookupField (objFields (mapMetaToWebm (.obj fields))) k = lookupField fields k) ∧
    (∀ (fields : List (String × JValue)) (k : String) (v : JValue),
        lookupField fields k = some v → shouldRewrite v = false →
        lookupField (objFields (mapMetaToWebm (.obj fields))) k = some v) ∧
    (∀ (fields attrs : List (String × JValue)) (k : String) (files : List JValue),
        metaTargets.contains k = true →
        lookupField fields k = some (.obj attrs) →
        lookupField attrs "files" = some (.arr files) →
        lookupField (objFields (mapMetaToWebm (.obj fields))) k =
          some (.obj (updateFilesField attrs))) ∧
    (∀ (attrs : List (String × JValue)) (files : List JValue),
        lookupField attrs "files" = some (.arr files) →
        lookupField (updateFilesField attrs) "files" =
          some (.arr (files.map (fun v =>
            match v with
            | .str s => .str (replaceWebpExt s)
            | v => v)))) ∧
    (∀ (attrs : List (String × JValue)) (k2 : String), k2 ≠ "files" →
        lookupField (updateFilesField attrs) k2 = lookupField attrs k2) ∧
    (∀ b : String, replaceWebpExt (b ++ ".webp") = b ++ ".webm") ∧
    (∀ s : String, jsEndsWith (jsToLower s) ".webp" = false → replaceWebpExt s = s) ∧
    (∀ fields : List (String × JValue),
        (objFields (mapMetaToWebm (.obj fields))).map Prod.fst = fields.map Prod.fst) := by
  refine ⟨?_, ?_, ?_, ?_, ?_, ?_, ?_, ?_⟩
  · intro fields k hk
    rw [lookupField_mapMeta]
    cases lookupField fields k with
    | none => rfl
    | some v =>
      have hk' : k ∉ metaTargets := by simpa using hk
      simp [hk']
  · intro fields k v hv hs
    rw [lookupField_mapMeta, hv]
    simp [hs]
  · intro fields attrs k files hk hv hfiles
    have hs : shouldRewrite (.obj attrs) = true := by
      simp [shouldRewrite, hfiles]
    have hk' : k ∈ metaTargets := by simpa using hk
    rw [lookupField_mapMeta, hv]
    simp [hk', hs, rewriteAttr]
  · intro attrs files hfiles
    rw [lookupField_updateFiles, hfiles]
    simp [mapFiles]
  · intro attrs k2 hk2
    rw [lookupField_updateFiles]
    cases lookupField attrs k2 with
    | none => rfl
    | some v => simp [hk2]
  · intro b
    have hlow : ".webp".data.map Char.toLower = ".webp".data := by decide
    have hcond : jsEndsWith (jsToLower (b ++ ".webp")) ".webp" = true := by
      apply List.isSuffixOf_iff_suffix.mpr
      refine ⟨b.data.map Char.toLower, ?_⟩
      show b.data.map Char.toLower ++ ".webp".data = (jsToLower (b ++ ".webp")).data
      simp [jsToLower, List.map_append, hlow]
    have hdrop : dropSuffixChars (b ++ ".webp") 5 = b := by
      apply congrArg String.mk
      show ((b ++ ".webp").data.take ((b ++ ".webp").data.length - 5)) = b.data
      have hd : (b ++ ".webp").data = b.data ++ ".webp".data := rfl
      rw [hd]
      have hlen : (b.data ++ ".webp".data).length - 5 = b.data.length := by
        simp [List.length_append]
      rw [hlen]
      exact List.take_left' rfl
    rw [replaceWebpExt, hcond]
    simp [hdrop]
  · intro s hs
    simp [replaceWebpExt, hs]
  · intro fields
    rw [mapMeta_fields_eq]
    simp [objFields, mapValuesWithKey, List.map_map, Function.comp]

theorem meta_rewrite_pure_nonlossy_witness :
    lookupField (objFields (mapMetaToWebm (.obj
        [("means", .obj [("files", .arr [.str "means.webp"]), ("shape", .num 2)]),
         ("extra", .str "keep")]))) "means" =
      some (.obj (updateFilesField
        [("files", .arr [.str "means.webp"]), ("shape", .num 2)])) ∧
    lookupField (objFields (mapMetaToWebm (.obj
        [("means", .obj [("files", .arr [.str "means.webp"]), ("shape", .num 2)]),
         ("extra", .str "keep")]))) "extra" = some (.str "keep") ∧
    replaceWebpExt ("means" ++ ".webp") = "means" ++ ".webm" := by
  obtain ⟨h1, h2, h3, h4, h5, h6, h7, h8⟩ := meta_rewrite_pure_nonlossy
  exact ⟨h3 _ [("files", .arr [.str "means.webp"]), ("shape", .num 2)] "means"
      [.str "means.webp"] rfl rfl rfl,
    h2 _ "extra" (.str "keep") rfl rfl, h6 "means"⟩

/-! ### Sequence-builder invariants (claims C1, C2) -/

theorem processWebp_match (pl seq : String) (st : BuildState) (k : Nat)
    (hcur : (mapLookup st.frameCounters seq).getD 0 = k)
    (hs : mapLookup st.splatFrames pl = some k) :
    processWebp pl seq st =
      ⟨mapSet st.frameCounters seq (k + 1), st.splatFrames,
        st.copies ++ [⟨pl, seq, k, frameFileName k⟩], st.warnings⟩ := by
  unfold processWebp
  rw [hcur, hs]
  simp

theorem processWebp_fresh (pl seq : String) (st : BuildState) (k : Nat)
    (hcur : (mapLookup st.frameCounters seq).getD 0 = k)
    (hs : mapLookup st.splatFrames pl = none) :
    processWebp pl seq st =
      ⟨mapSet st.frameCounters seq (k + 1), mapSet st.splatFrames pl k,
        st.copies ++ [⟨pl, seq, k, frameFileName k⟩], st.warnings⟩ := by
  unfold processWebp
  rw [hcur, hs]

theorem processSeqs_already (pl : String) (k : Nat) :
    ∀ (rest : List String) (st : BuildState),
      rest.Nodup →
      (∀ a ∈ rest, (mapLookup st.frameCounters a).getD 0 = k) →
      mapLookup st.splatFrames pl = some k →
      (∀ a, mapLookup (rest.foldl (fun s seq => processWebp pl seq s) st).frameCounters a =
          if a ∈ rest then some (k + 1) else mapLookup st.frameCounters a) ∧
      (rest.foldl (fun s seq => processWebp pl seq s) st).splatFrames = st.splatFrames ∧
      (rest.foldl (fun s seq => processWebp pl seq s) st).copies =
        st.copies ++ rest.map (fun a => ⟨pl, a, k, frameFileName k⟩) ∧
      (rest.foldl (fun s seq => processWebp pl seq s) st).warnings = st.warnings := by
  intro rest
  induction rest with
  | nil =>
    intro st _ _ _
    exact ⟨fun a => by simp, rfl, by simp, rfl⟩
  | cons a rest' ih =>
    intro st hnd hc hs
    have hcur : (mapLookup st.frameCounters a).getD 0 = k := hc a (by simp)
    have hna : a ∉ rest' := (List.nodup_cons.mp hnd).1
    have hnd' : rest'.Nodup := (List.nodup_cons.mp hnd).2
    rw [List.foldl_cons, processWebp_match pl a st k hcur hs]
    have hc' : ∀ b ∈ rest',
        (mapLookup (mapSet st.frameCounters a (k + 1)) b).getD 0 = k := by
      intro b hb
      have hba : b ≠ a := fun he => hna (he ▸ hb)
      rw [mapLookup_set_other _ _ _ _ hba]
      exact hc b (by simp [hb])
    obtain ⟨ihc, ihs, ihcop, ihw⟩ := ih
      ⟨mapSet st.frameCounters a (k + 1), st.splatFrames,
        st.copies ++ [⟨pl, a, k, frameFileName k⟩], st.warnings⟩ hnd' hc' hs
    refine ⟨?_, ihs, ?_, ihw⟩
    · intro b
      rw [ihc b]
      by_cases hb : b ∈ rest'
      · simp [hb]
      · by_cases hba : b = a
        · subst hba
          simp only [hb, if_false]
          rw [mapLookup_set_self]
          simp
        · simp only [hb, if_false]
          show mapLookup (mapSet st.frameCounters a (k + 1)) b = _
          rw [mapLookup_set_other _ _ _ _ hba]
          simp [hb, hba]
    · rw [ihcop]
      simp

theorem processItem_spec (attrs : List String) (item : SourceItem) (st : BuildState) (k : Nat)
    (hnd : attrs.Nodup) (hwebps : item.webps = attrs)
    (hc : ∀ a ∈ attrs, (mapLookup st.frameCounters a).getD 0 = k)
    (hfresh : mapLookup st.splatFrames item.plyName = none) :
    (∀ a, mapLookup (processItem st item).frameCounters a =
        if a ∈ attrs then some (k + 1) else mapLookup st.frameCounters a) ∧
    (∀ p, mapLookup (processItem st item).splatFrames p =
        if p = item.plyName ∧ attrs ≠ [] then some k else mapLookup st.splatFrames p) ∧
    (processItem st item).copies =
      st.copies ++ attrs.map (fun a => ⟨item.plyName, a, k, frameFileName k⟩) ∧
    (processItem st item).warnings = st.warnings := by
  unfold processItem
  rw [hwebps]
  match attrs, hnd, hc with
  | [], _, _ =>
    exact ⟨fun a => by simp, fun p => by simp, by simp, rfl⟩
  | a0 :: as, hnd, hc =>
    have hcur : (mapLookup st.frameCounters a0).getD 0 = k := hc a0 (by simp)
    have hna : a0 ∉ as := (List.nodup_cons.mp hnd).1
    have hnd' : as.Nodup := (List.nodup_cons.mp hnd).2
    rw [List.foldl_cons, processWebp_fresh item.plyName a0 st k hcur hfresh]
    have hc' : ∀ b ∈ as,
        (mapLookup (mapSet st.frameCounters a0 (k + 1)) b).getD 0 = k := by
      intro b hb
      have hba : b ≠ a0 := fun he => hna (he ▸ hb)
      rw [mapLookup_set_other _ _ _ _ hba]
      exact hc b (by simp [hb])
    have hs' : mapLookup (mapSet st.splatFrames item.plyName k) item.plyName = some k :=
      mapLookup_set_self _ _ _
    obtain ⟨ihc, ihs, ihcop, ihw⟩ := processSeqs_already item.plyName k as
      ⟨mapSet st.frameCounters a0 (k + 1), mapSet st.splatFrames item.plyName k,
        st.copies ++ [⟨item.plyName, a0, k, frameFileName k⟩], st.warnings⟩ hnd' hc' hs'
    refine ⟨?_, ?_, ?_, ihw⟩
    · intro b
      rw [ihc b]
      by_cases hb : b ∈ as
      · simp [hb]
      · by_cases hba : b = a0
        · subst hba
          simp only [hb, if_false]
          rw [mapLookup_set_self]
          simp
        · simp only [hb, if_false]
          show mapLookup (mapSet st.frameCounters a0 (k + 1)) b = _
          rw [mapLookup_set_other _ _ _ _ hba]
          simp [hb, hba]
    · intro p
      rw [ihs]
      by_cases hp : p = item.plyName
      · subst hp
        show mapLookup (mapSet st.splatFrames item.plyName k) item.plyName = _
        rw [mapLookup_set_self]
        simp
      · show mapLookup (mapSet st.splatFrames item.plyName k) p = _
        rw [mapLookup_set_other _ _ _ _ hp]
        simp [hp]
    · rw [ihcop]
      simp

theorem buildSequences_go (attrs : List String) :
    ∀ (items : List SourceItem) (st : BuildState) (k : Nat),
      attrs.Nodup →
      (∀ item ∈ items, item.webps = attrs) →
      ((items.map (fun i => i.plyName)).Nodup) →
      (∀ item ∈ items, mapLookup st.splatFrames item.plyName = none) →
      (∀ a ∈ attrs, (mapLookup st.frameCounters a).getD 0 = k) →
      (∀ i, ∀ h : i < items.length, attrs ≠ [] →
          mapLookup (items.foldl processItem st).splatFrames
            (items.get ⟨i, h⟩).plyName = some (k + i)) ∧
      (∀ p, (∀ item ∈ items, item.plyName ≠ p) →
          mapLookup (items.foldl processItem st).splatFrames p =
            mapLookup st.splatFrames p) ∧
      (items.foldl processItem st).copies = st.copies ++ expectedCopies attrs items k ∧
      (items.foldl processItem st).warnings = st.warnings := by
  intro items
  induction items with
  | nil =>
    intro st k _ _ _ _ _
    refine ⟨?_, fun p _ => rfl, by simp [expectedCopies], rfl⟩
    intro i h
    exact absurd h (by simp)
  | cons item rest ih =>
    intro st k hnd hw hnames hfresh hc
    have hwebps : item.webps = attrs := hw item (by simp)
    obtain ⟨pc, ps, pcop, pw⟩ :=
      processItem_spec attrs item st k hnd hwebps hc
        (hfresh item (by simp))
    have hnameshd : item.plyName ∉ rest.map (fun i => i.plyName) :=
      (List.nodup_cons.mp (by simpa using hnames)).1
    have hnames' : (rest.map (fun i => i.plyName)).Nodup :=
      (List.nodup_cons.mp (by simpa using hnames)).2
    have hfresh' : ∀ it ∈ rest, mapLookup (processItem st item).splatFrames it.plyName = none := by
      intro it hit
      rw [ps it.plyName]
      have hne : ¬ (it.plyName = item.plyName ∧ attrs ≠ []) := by
        intro ⟨he, _⟩
        exact hnameshd (by
          rw [← he]
          exact List.mem_map_of_mem _ hit)
      rw [if_neg hne]
      exact hfresh it (by simp [hit])
    have hc' : ∀ a ∈ attrs, (mapLookup (processItem st item).frameCounters a).getD 0 = k + 1 := by
      intro a ha
      rw [pc a, if_pos ha]
      rfl
    obtain ⟨ihidx, ihpres, ihcop, ihw⟩ := ih (processItem st item) (k + 1) hnd
      (fun it hit => hw it (by simp [hit])) hnames' hfresh' hc'
    rw [List.foldl_cons]
    refine ⟨?_, ?_, ?_, ?_⟩
    · intro i h hattrs
      match i, h with
      | 0, h =>
        have hpres := ihpres item.plyName (by
          intro it hit he
          exact hnameshd (by
            rw [← he]
            exact List.mem_map_of_mem _ hit))
        show mapLookup (List.foldl processItem (processItem st item) rest).splatFrames
          item.plyName = some (k + 0)
        rw [hpres, ps item.plyName, if_pos ⟨rfl, hattrs⟩]
        simp
      | i + 1, h =>
        have h' : i < rest.length := by simpa using Nat.lt_of_succ_lt_succ h
        have hterm := ihidx i h' hattrs
        have harith : k + 1 + i = k + (i + 1) := by omega
        rw [harith] at hterm
        exact hterm
    · intro p hp
      rw [ihpres p (fun it hit => hp it (by simp [hit])), ps p,
        if_neg (fun hpe => hp item (by simp) hpe.1.symm)]
    · rw [ihcop, pcop, expectedCopies]
      simp
    · rw [ihw, pw]

theorem mem_expectedCopies (attrs : List String) :
    ∀ (items : List SourceItem) (k : Nat) (c : CopyRecord),
      c ∈ expectedCopies attrs items k →
      ∃ i, ∃ h : i < items.length, c.plyName = (items.get ⟨i, h⟩).plyName ∧
        c.frameIndex = k + i ∧ c.seqName ∈ attrs ∧ c.fileName = frameFileName (k + i) := by
  intro items
  induction items with
  | nil => intro k c hc; simp [expectedCopies] at hc
  | cons item rest ih =>
    intro k c hc
    rw [expectedCopies, List.mem_append] at hc
    cases hc with
    | inl h =>
      rcases List.mem_map.mp h with ⟨a, ha, hEq⟩
      refine ⟨0, by simp, ?_, ?_, ?_, ?_⟩
      · rw [← hEq]; rfl
      · rw [← hEq]; rfl
      · rw [← hEq]; exact ha
      · rw [← hEq]; rfl
    | inr h =>
      rcases ih (k + 1) c h with ⟨i, hi, h1, h2, h3, h4⟩
      have harith : k + 1 + i = k + (i + 1) := by omega
      refine ⟨i + 1, by simpa using Nat.succ_lt_succ hi, ?_, ?_, h3, ?_⟩
      · rw [h1]; rfl
      · rw [h2, harith]
      · rw [h4, harith]

/-- C1 (amended): in a fresh-conversion run where every source object
contributes the same duplicate-free attribute list (the expected
one-image-per-object-per-attribute cardinality), every manifest entry's
frame is exactly the recorded canonical index of its object, and every
frame file copied into any attribute sequence for an object is named
with that same recorded index.  (Without the cardinality hypothesis the
claim fails: see the counterexample.) -/
theorem manifest_frame_matches_all_sequences (attrs : List String) (items : List SourceItem)
    (metas : String → JValue)
    (hnd : attrs.Nodup) (hw : ∀ item ∈ items, item.webps = attrs)
    (hnames : (items.map (fun i => i.plyName)).Nodup) :
    (∀ e ∈ buildManifest items metas (buildSequences items),
        e.frame = mapLookup (buildSequences items).splatFrames e.original) ∧
    (∀ c ∈ (buildSequences items).copies,
        c.fileName = frameFileName c.frameIndex ∧
        mapLookup (buildSequences items).splatFrames c.plyName = some c.frameIndex) := by
  obtain ⟨hidx, hpres, hcop, hwarn⟩ := buildSequences_go attrs items initialBuildState 0 hnd hw
    hnames (fun _ _ => rfl) (fun a _ => rfl)
  constructor
  · intro e he
    rcases List.mem_map.mp he with ⟨it, hit, hEq⟩
    rw [← hEq]
  · intro c hc
    rw [show buildSequences items = items.foldl processItem initialBuildState from rfl] at hc
    rw [hcop] at hc
    have hc' : c ∈ expectedCopies attrs items 0 := by simpa [initialBuildState] using hc
    rcases mem_expectedCopies attrs items 0 c hc' with ⟨i, hi, h1, h2, h3, h4⟩
    have hattrs : attrs ≠ [] := List.ne_nil_of_mem h3
    constructor
    · rw [h4, h2]
    · rw [h1, h2]
      have := hidx i hi hattrs
      simpa using this

theorem manifest_frame_matches_all_sequences_witness :
    mapLookup (buildSequences [⟨"a.ply", ["means"]⟩]).splatFrames "a.ply" = some 0 :=
  ((manifest_frame_matches_all_sequences ["means"] [⟨"a.ply", ["means"]⟩]
      (fun _ => JValue.null) (by decide) (by decide) (by decide)).2
    ⟨"a.ply", "means", 0, frameFileName 0⟩ (by decide)).2

/-- C1 counterexample to the claim as stated: with object `a.ply`
contributing only `means` and object `b.ply` contributing `scales` then
`means`, the `means` frame of `b.ply` is written as frame 1 while the
manifest records frame 0 for `b.ply` — so the manifest index does not
match the index used in every sequence that received a frame from it. -/
theorem manifest_frame_matches_all_sequences_cex :
    (⟨"b.ply", "means", 1, frameFileName 1⟩ : CopyRecord) ∈
      (buildSequences [⟨"a.ply", ["means"]⟩, ⟨"b.ply", ["scales", "means"]⟩]).copies ∧
    mapLookup (buildSequences
        [⟨"a.ply", ["means"]⟩, ⟨"b.ply", ["scales", "means"]⟩]).splatFrames "b.ply" =
      some 0 ∧
    (buildManifest [⟨"a.ply", ["means"]⟩, ⟨"b.ply", ["scales", "means"]⟩]
        (fun _ => JValue.null)
        (buildSequences [⟨"a.ply", ["means"]⟩, ⟨"b.ply", ["scales", "means"]⟩])).map
      (fun e => (e.original, e.frame)) = [("a.ply", some 0), ("b.ply", some 0)] ∧
    some (0 : Nat) ≠ some 1 :=
  ⟨by decide, by decide, rfl, by decide⟩

/-- C2 (amended): in a fresh-conversion run where every source object
contributes the same duplicate-free *nonempty* attribute list, the
canonical frame indices recorded for the objects are 0, 1, ..., N-1 in
catalog order (each successive object one higher), and every frame
copied for an object uses exactly its canonical index.  (Without the
same-attribute-set hypothesis the indices can repeat: see the
counterexample.) -/
theorem frame_indices_contiguous (attrs : List String) (items : List SourceItem)
    (hnd : attrs.Nodup) (hne : attrs ≠ []) (hw : ∀ item ∈ items, item.webps = attrs)
    (hnames : (items.map (fun i => i.plyName)).Nodup) :
    (∀ i, ∀ h : i < items.length,
        mapLookup (buildSequences items).splatFrames (items.get ⟨i, h⟩).plyName = some i) ∧
    (∀ c ∈ (buildSequences items).copies,
        mapLookup (buildSequences items).splatFrames c.plyName = some c.frameIndex) := by
  obtain ⟨hidx, hpres, hcop, hwarn⟩ := buildSequences_go attrs items initialBuildState 0 hnd hw
    hnames (fun _ _ => rfl) (fun a _ => rfl)
  constructor
  · intro i h
    have := hidx i h hne
    simpa using this
  · intro c hc
    rw [show buildSequences items = items.foldl processItem initialBuildState from rfl] at hc
    rw [hcop] at hc
    have hc' : c ∈ expectedCopies attrs items 0 := by simpa [initialBuildState] using hc
    rcases mem_expectedCopies attrs items 0 c hc' with ⟨i, hi, h1, h2, h3, _⟩
    rw [h1, h2]
    have := hidx i hi hne
    simpa using this

theorem frame_indices_contiguous_witness :
    mapLookup (buildSequences [⟨"a.ply", ["means"]⟩, ⟨"b.ply", ["means"]⟩]).splatFrames
      (([⟨"a.ply", ["means"]⟩, ⟨"b.ply", ["means"]⟩] : List SourceItem).get
        ⟨1, by decide⟩).plyName = some 1 :=
  (frame_indices_contiguous ["means"] [⟨"a.ply", ["means"]⟩, ⟨"b.ply", ["means"]⟩]
    (by decide) (by decide) (by decide) (by decide)).1 1 (by decide)

/-- C2 counterexample to the claim as stated: with object `a.ply`
contributing only `scales` and object `b.ply` contributing only `means`,
both objects are assigned canonical frame index 0 — the indices are not
contiguous and do not increase by one per object. -/
theorem frame_indices_contiguous_cex :
    mapLookup (buildSequences [⟨"a.ply", ["scales"]⟩, ⟨"b.ply", ["means"]⟩]).splatFrames
      "a.ply" = some 0 ∧
    mapLookup (buildSequences [⟨"a.ply", ["scales"]⟩, ⟨"b.ply", ["means"]⟩]).splatFrames
      "b.ply" = some 0 ∧ (0 : Nat) ≠ 0 + 1 :=
  ⟨by decide, by decide, by decide⟩

end SplatTemporal
